import Mathlib

/-!
A verification development for a push-based lazy sequence library
("LINQ to objects").  Sequences are functions that push each element into
a consumer callback; early termination is a panic carrying an
identity-unique token that each exit-capable loop frame catches only when
it is its own; adapter failures are panics carrying non-token values.

Modelling conventions.

* A call either returns normally or panics; its outcome is
  recorded as a value of the type given below, with the empty option
  meaning a normal return and a present value a panic unwinding to the
  caller.
* The source's closures mutate captured variables; here every callback
  threads an explicit state, so a yield callback has the shape
  one element and one state in, new state and outcome out.
* The fresh token address minted by each exit-capable loop frame is
  modelled by a natural-number identity drawn from a supply threaded
  through runs: a frame uses its current supply value as its token
  identity and passes the incremented supply upstream, so distinct
  nested live frames hold distinct identities.
-/

/-- A panic value: either the exit token of the exit-capable loop frame
with the given identity, or an adapter failure (such as the scanner error
panicked by a reader source), which is never equal to any token. -/
inductive PanicVal : Type where
  | token : Nat → PanicVal
  | err : Nat → PanicVal
deriving DecidableEq

/-- Outcome of running a piece of code: `none` means it returned
normally, `some p` means it panicked with value `p`. -/
abbrev Res : Type := Option PanicVal

/-- Embeds the element loop of a slice-backed source: pushes the elements
of `l` into `body` in order, threading the state; a panic from `body`
aborts the loop and propagates. -/
def runFrom {α σ : Type} (l : List α) (body : α → σ → σ × Res) (s : σ) :
    σ × Res :=
  match l with
  | [] => (s, none)
  | x :: xs =>
    match body x s with
    | (s1, none) => runFrom xs body s1
    | (s1, some p) => (s1, some p)

/-- Instrumented variant of `runFrom` that also records the list of
elements on which `body` was invoked, i.e. the elements actually pulled
from the source during the run. -/
def runFromT {α σ : Type} (l : List α) (body : α → σ → σ × Res) (s : σ) :
    (σ × Res) × List α :=
  match l with
  | [] => ((s, none), [])
  | x :: xs =>
    match body x s with
    | (s1, none) =>
      let t := runFromT xs body s1
      (t.1, x :: t.2)
    | (s1, some p) => ((s1, some p), [x])

/-- An `Enumerator` represents a sequence abstractly: given the token
supply and a stateful yield callback, it runs the sequence, returning the
final state and the run's outcome. -/
def Enumerator (α : Type) : Type 1 :=
  Nat → (σ : Type) → (α → σ → σ × Res) → σ → σ × Res

/-- `From` creates an Enumerator from a slice (modelled as a list). -/
def From {α : Type} (l : List α) : Enumerator α :=
  fun _ _ yield s => runFrom l yield s

/-- `loop` represents the sequence of elements `l`: every run behaves as
pushing the elements of `l` in order.  This is the data-model reading of
an Enumerator as an abstract sequence. -/
def Represents {α : Type} (loop : Enumerator α) (l : List α) : Prop :=
  ∀ (supply : Nat) (σ : Type) (yield : α → σ → σ × Res) (s : σ),
    loop supply σ yield s = runFrom l yield s

/-- `LoopWithExit` calls `f` with each element and an exit capability.
The frame mints a fresh token (its current supply value); `f` receives
the panic value that calling the exit capability raises, so `f`
returning that value as its outcome models calling the capability.  The
deferred recover catches exactly this frame's own token, turning it into
a normal return, and re-panics any other value unchanged. -/
def LoopWithExit {α σ : Type} (loop : Enumerator α) (supply : Nat)
    (f : α → Res → σ → σ × Res) (s : σ) : σ × Res :=
  let tok : PanicVal := PanicVal.token supply
  match loop (supply + 1) σ (fun e st => f e (some tok) st) s with
  | (s1, none) => (s1, none)
  | (s1, some p) => if p = tok then (s1, none) else (s1, some p)

/-- The loop body of `Take`: increment the counter, yield the element,
and after the n-th element call exit.  A panic from the yield aborts the
body and propagates. -/
def takeBody {α σ : Type} (n : Int) (yield : α → σ → σ × Res) :
    α → Res → Int × σ → (Int × σ) × Res :=
  fun e exitRes is =>
    match yield e is.2 with
    | (s1, some p) => ((is.1 + 1, s1), some p)
    | (s1, none) =>
      if is.1 + 1 ≥ n then ((is.1 + 1, s1), exitRes)
      else ((is.1 + 1, s1), none)

/-- `Take` creates an Enumerator taking the first `n` elements; for
`n > 0` it wraps the upstream in `LoopWithExit` with `takeBody`, and for
`n ≤ 0` it returns at once without invoking the upstream at all. -/
def Take {α : Type} (loop : Enumerator α) (n : Int) : Enumerator α :=
  fun supply _ yield s =>
    if n > 0 then
      let r := LoopWithExit loop supply (takeBody n yield) (0, s)
      (r.1.2, r.2)
    else (s, none)

/-- The loop body of `TakeWhile`: yield while the predicate holds and
call exit on the first failing element, without yielding it. -/
def takeWhileBody {α σ : Type} (predicate : α → Bool)
    (yield : α → σ → σ × Res) : α → Res → σ → σ × Res :=
  fun e exitRes s =>
    if predicate e then yield e s else (s, exitRes)

/-- `TakeWhile` creates an Enumerator which takes elements from the
sequence until the predicate applied to the element results in false. -/
def TakeWhile {α : Type} (loop : Enumerator α) (predicate : α → Bool) :
    Enumerator α :=
  fun supply _ yield s =>
    LoopWithExit loop supply (takeWhileBody predicate yield) s

/-- The loop body of `Skip`: while the counter is below `n`, discard the
element and increment; afterwards yield every element. -/
def skipBody {α σ : Type} (n : Int) (yield : α → σ → σ × Res) :
    α → Int × σ → (Int × σ) × Res :=
  fun e is =>
    if is.1 ≥ n then
      let r := yield e is.2
      ((is.1, r.1), r.2)
    else ((is.1 + 1, is.2), none)

/-- `Skip` creates an Enumerator which skips the first `n` elements of
the sequence. -/
def Skip {α : Type} (loop : Enumerator α) (n : Int) : Enumerator α :=
  fun supply _ yield s =>
    let r := loop supply _ (skipBody n yield) (0, s)
    (r.1.2, r.2)

/-- The loop body of `SkipWhile`: while still at the head, elements
satisfying the predicate are discarded; on the first failing element the
head flag is cleared and that element and all later ones are yielded. -/
def skipWhileBody {α σ : Type} (predicate : α → Bool)
    (yield : α → σ → σ × Res) : α → Bool × σ → (Bool × σ) × Res :=
  fun e as =>
    if as.1 then
      if predicate e then ((true, as.2), none)
      else
        let r := yield e as.2
        ((false, r.1), r.2)
    else
      let r := yield e as.2
      ((as.1, r.1), r.2)

/-- `SkipWhile` creates an Enumerator which skips elements until the
predicate applied to the element results in false. -/
def SkipWhile {α : Type} (loop : Enumerator α) (predicate : α → Bool) :
    Enumerator α :=
  fun supply _ yield s =>
    let r := loop supply _ (skipWhileBody predicate yield) (true, s)
    (r.1.2, r.2)

/-- `Concat` concatenates two Enumerators: it runs the first with the
shared yield body and, only if that run returns normally, runs the
second; a panic from the first run propagates and the second is never
invoked. -/
def Concat {α : Type} (loop loop2 : Enumerator α) : Enumerator α :=
  fun supply σ yield s =>
    match loop supply σ yield s with
    | (s1, none) => loop2 supply σ yield s1
    | (s1, some p) => (s1, some p)

/-- The loop body of `Zip`'s primary driver: for each element of the
primary sequence, request the next secondary element from the worker; if
one is delivered, yield the combined value, otherwise (secondary
exhausted, its data channel closed) call exit. -/
def zipBody {T U R σ : Type} (f : T → U → R) (yield : R → σ → σ × Res) :
    T → Res → List U × σ → (List U × σ) × Res :=
  fun e exitRes bs =>
    match bs.1 with
    | [] => ((bs.1, bs.2), exitRes)
    | b :: rest =>
      let r := yield (f e b) bs.2
      ((rest, r.1), r.2)

/-- `Zip` enumerates the primary sequence and the secondary sequence in
step, applying `f` to each element pair.  The secondary sequence is run
by a worker and handed over one element per request through a capacity
one rendezvous; here that handshake is sequentialized, the worker's
state being the list of its elements not yet delivered. -/
def Zip {T U R : Type} (f : T → U → R) (loop1 : Enumerator T)
    (lb : List U) : Enumerator R :=
  fun supply _ yield s =>
    let r := LoopWithExit loop1 supply (zipBody f yield) (lb, s)
    (r.1.2, r.2)

/-- `ToList` creates a list from the sequence which the Enumerator
represents, by pushing each element onto the back; a panic from the run
propagates to the caller, recorded in the outcome component. -/
def ToList {α : Type} (loop : Enumerator α) : List α × Res :=
  loop 0 (List α) (fun e acc => (acc ++ [e], none)) []

/-- `ToSlice` creates a slice from the sequence: it materializes the
list and copies it element by element, which is the identity on the
model's lists. -/
def ToSlice {α : Type} (loop : Enumerator α) : List α × Res :=
  ToList loop

/-- `Aggregate` applies the binary function `f` to the seed and each
element in turn, returning the final accumulator (left fold). -/
def Aggregate {S T : Type} (f : S → T → S) (seed : S)
    (loop : Enumerator T) : S × Res :=
  loop 0 S (fun e acc => (f acc e, none)) seed

/-- The loop body of `AggregateWithExit`: the folding function either
returns the next accumulator normally (left injection) or calls its exit
capability with a value (right injection), which stores that value into
the accumulator and panics with the frame's token. -/
def aggExitBody {S T : Type} (f : S → T → S ⊕ S) :
    T → Res → S → S × Res :=
  fun e exitRes acc =>
    match f acc e with
    | Sum.inl v => (v, none)
    | Sum.inr x => (x, exitRes)

/-- `AggregateWithExit` is the variant of `Aggregate` which supplies an
exit capability to `f`: the callback's right injection models calling
exit with that value, which becomes the overall result. -/
def AggregateWithExit {S T : Type} (f : S → T → S ⊕ S) (seed : S)
    (loop : Enumerator T) : S × Res :=
  LoopWithExit loop 0 (aggExitBody f) seed

/-- The reference denotation of `AggregateWithExit` on a list: fold from
the seed; a left injection continues the fold with the new accumulator,
a right injection stops at once with that value as the result. -/
def aggExitSpec {S T : Type} (f : S → T → S ⊕ S) (seed : S) :
    List T → S
  | [] => seed
  | e :: rest =>
    match f seed e with
    | Sum.inl v => aggExitSpec f v rest
    | Sum.inr x => x

/-- `FromReader` creates an Enumerator of lines from a reader, modelled
by the list of lines its scanner produces and an optional scanner error
code: each line is yielded in order and, when every line was delivered
normally and an error is present, the run panics with that adapter
failure.  A panic from a yield propagates before the error check is
reached. -/
def FromReader (lines : List String) (errCode : Option Nat) :
    Enumerator String :=
  fun _ _ yield s =>
    match runFrom lines yield s with
    | (s1, some p) => (s1, some p)
    | (s1, none) =>
      match errCode with
      | some e => (s1, some (PanicVal.err e))
      | none => (s1, none)

/-- The traced inner run of a `LoopWithExit` frame over the source
elements `l`: the final state, the outcome of the wrapped run as seen by
the frame's recover, and the elements on which `f` was invoked. -/
def loopTrace {α σ : Type} (l : List α) (supply : Nat)
    (f : α → Res → σ → σ × Res) (s : σ) : (σ × Res) × List α :=
  runFromT l (fun e st => f e (some (PanicVal.token supply)) st) s

/-!
### The Zip handshake protocol

`Zip`'s secondary sequence is driven by a worker.  The interleaved
execution of the two control flows is modelled by a small-step system:
the primary driver iterates the primary elements inside its exit-capable
loop, sending one request on the capacity-one quit channel per element
and blocking on the unbuffered data channel for the response; the
deferred close of the quit channel runs on every way out of the
produced sequence's call.  The worker receives one request per secondary
element, sends that element over the data channel (a joint rendezvous
step with the blocked primary), exits when the quit channel is closed,
and closes the data channel when it stops.
-/

/-- The primary driver's thread state: iterating the remaining primary
elements with the downstream state (run), blocked on the data channel
after sending a request (await), or returned — normally or by panic —
with the deferred close of the quit channel executed (stopped). -/
inductive PrimSt (T σ : Type) : Type where
  | run : List T → σ → PrimSt T σ
  | await : T → List T → σ → PrimSt T σ
  | stopped : PrimSt T σ

/-- The worker's thread state: about to receive from the quit channel
with the given secondary elements remaining (recv), blocked sending the
next element on the data channel (send), or terminated with the data
channel closed (stopped). -/
inductive WorkSt (U : Type) : Type where
  | recv : List U → WorkSt U
  | send : U → List U → WorkSt U
  | stopped : WorkSt U

/-- The capacity-one quit channel: no request buffered, one request
buffered, or closed. -/
inductive QuitSt : Type where
  | empty : QuitSt
  | full : QuitSt
  | closed : QuitSt
deriving DecidableEq

/-- A global configuration of one Zip execution: the primary thread, the
worker thread, and the quit channel; the data channel's state is carried
by the worker (blocked send, or closed when the worker has stopped). -/
structure ZipConf (T U σ : Type) : Type where
  prim : PrimSt T σ
  work : WorkSt U
  quit : QuitSt

/-- The steps the primary driver can take from `c`: finish when the
primary elements are exhausted (running the deferred close of the quit
channel); send a request and block on the data channel; complete the
rendezvous with a blocked worker send, yielding downstream and either
continuing or unwinding on a downstream panic (again closing the quit
channel on the way out); or, when the worker has stopped and thus closed
the data channel, take the not-ok branch and exit, its own frame turning
that into a normal return, closing the quit channel. -/
def zipPrimSteps {T U R σ : Type} (f : T → U → R)
    (yield : R → σ → σ × Res) (c : ZipConf T U σ) :
    List (ZipConf T U σ) :=
  match c.prim, c.work, c.quit with
  | .run [] _, w, _ => [⟨.stopped, w, .closed⟩]
  | .run (a :: as) s, w, .empty => [⟨.await a as s, w, .full⟩]
  | .await a as s, .send b bs, q =>
    match yield (f a b) s with
    | (s1, none) => [⟨.run as s1, .recv bs, q⟩]
    | (_, some _) => [⟨.stopped, .recv bs, .closed⟩]
  | .await _ _ _, .stopped, _ => [⟨.stopped, .stopped, .closed⟩]
  | _, _, _ => []

/-- The steps the worker can take from `c`: finish when the secondary
elements are exhausted (closing the data channel); consume a buffered
request and block sending the next element; or, when the quit channel is
closed, take the not-ok branch and exit, closing the data channel. -/
def zipWorkSteps {T U σ : Type} (c : ZipConf T U σ) :
    List (ZipConf T U σ) :=
  match c.work, c.quit with
  | .recv [], q => [⟨c.prim, .stopped, q⟩]
  | .recv (b :: bs), .full => [⟨c.prim, .send b bs, .empty⟩]
  | .recv (_ :: _), .closed => [⟨c.prim, .stopped, .closed⟩]
  | _, _ => []

/-- All the steps enabled at `c`: either thread may move. -/
def zipStep {T U R σ : Type} (f : T → U → R) (yield : R → σ → σ × Res)
    (c : ZipConf T U σ) : List (ZipConf T U σ) :=
  zipPrimSteps f yield c ++ zipWorkSteps c

/-- Clean completion: both threads have terminated — the worker is not
blocked on any channel — and the stop signal was sent (the quit channel
is closed). -/
def zipDone {T U σ : Type} (c : ZipConf T U σ) : Bool :=
  match c.prim, c.work, c.quit with
  | .stopped, .stopped, .closed => true
  | _, _, _ => false

/-- Every maximal interleaving from `c` is finite and ends cleanly: a
configuration is safe when it is already cleanly completed, or when it
has at least one enabled step (no deadlock) and every enabled step leads
to a safe configuration. -/
inductive SafeTerm {T U R σ : Type} (f : T → U → R)
    (yield : R → σ → σ × Res) : ZipConf T U σ → Prop where
  | finished : ∀ c, zipDone c = true → SafeTerm f yield c
  | advance : ∀ c, zipStep f yield c ≠ [] →
      (∀ c' ∈ zipStep f yield c, SafeTerm f yield c') → SafeTerm f yield c

/-- The initial configuration of one Zip execution: the primary about to
iterate its elements, the worker started and about to request, the quit
channel open and empty. -/
def zipInit {T U σ : Type} (la : List T) (lb : List U) (s : σ) :
    ZipConf T U σ :=
  ⟨.run la s, .recv lb, .empty⟩

/-- The configurations reachable in the protocol: each line is one of
the seven shapes an execution can be in. -/
def zipInv {T U σ : Type} (c : ZipConf T U σ) : Prop :=
  match c.prim, c.work, c.quit with
  | .run _ _, .recv _, .empty => True
  | .run _ _, .stopped, .empty => True
  | .await _ _ _, .recv _, .full => True
  | .await _ _ _, .send _ _, .empty => True
  | .await _ _ _, .stopped, .full => True
  | .stopped, .recv _, .closed => True
  | .stopped, .stopped, .closed => True
  | _, _, _ => False

/-- A measure every step strictly decreases, bounding the length of any
interleaving. -/
def zipMeasure {T U σ : Type} (c : ZipConf T U σ) : Nat :=
  (match c.prim with
   | .run as _ => 3 * as.length + 2
   | .await _ as _ => 3 * as.length + 1
   | .stopped => 0)
  + (match c.work with
     | .recv bs => 3 * bs.length + 2
     | .send _ bs => 3 * bs.length + 4
     | .stopped => 0)

/-! ### Generic lemmas about runs and traces -/

theorem runFromT_fst {α σ : Type} (l : List α) (body : α → σ → σ × Res)
    (s : σ) : (runFromT l body s).1 = runFrom l body s := by
  induction l generalizing s with
  | nil => rfl
  | cons x xs ih =>
    cases hb : body x s with
    | mk s1 r => cases r <;> simp [runFrom, runFromT, hb, ih]

theorem runFromT_trace_take {α σ : Type} (l : List α)
    (body : α → σ → σ × Res) (s : σ) :
    (runFromT l body s).2 = l.take (runFromT l body s).2.length := by
  induction l generalizing s with
  | nil => rfl
  | cons x xs ih =>
    cases hb : body x s with
    | mk s1 r =>
      cases r with
      | none =>
        simp only [runFromT, hb]
        simpa using ih s1
      | some p => simp [runFromT, hb]

theorem runFromT_trace_stable {α σ : Type} (l : List α)
    (body : α → σ → σ × Res) (s : σ) :
    runFromT (l.take (runFromT l body s).2.length) body s
      = runFromT l body s := by
  induction l generalizing s with
  | nil => rfl
  | cons x xs ih =>
    cases hb : body x s with
    | mk s1 r =>
      cases r with
      | none =>
        simp only [runFromT, hb, List.length_cons, List.take_succ_cons]
        simp [runFromT, hb, ih]
      | some p => simp [runFromT, hb]

theorem runFromT_trace_all {α σ : Type} (l : List α)
    (body : α → σ → σ × Res) (s : σ)
    (h : (runFromT l body s).1.2 = none) : (runFromT l body s).2 = l := by
  induction l generalizing s with
  | nil => rfl
  | cons x xs ih =>
    cases hb : body x s with
    | mk s1 r =>
      cases r with
      | none =>
        simp only [runFromT, hb] at h ⊢
        simpa using ih s1 (by simpa using h)
      | some p => simp [runFromT, hb] at h

theorem runFrom_no_tok {α σ : Type} (l : List α) (body : α → σ → σ × Res)
    (s : σ) (p : PanicVal) (hb : ∀ e st, (body e st).2 ≠ some p) :
    (runFrom l body s).2 ≠ some p := by
  induction l generalizing s with
  | nil => simp [runFrom]
  | cons x xs ih =>
    cases hx : body x s with
    | mk s1 r =>
      cases r with
      | none => simpa [runFrom, hx] using ih s1
      | some q =>
        have := hb x s
        rw [hx] at this
        simpa [runFrom, hx] using fun hq => this (by rw [hq])

theorem runFrom_append {α : Type} (l acc : List α) :
    runFrom l (fun e acc => (acc ++ [e], none)) acc = (acc ++ l, none) := by
  induction l generalizing acc with
  | nil => simp [runFrom]
  | cons x xs ih => simp [runFrom, ih]

/-! ### Claim C1: the exit-capable loop -/

/-- Claim C1: for every Enumerator representing a sequence and every
callback `f`, `LoopWithExit` calls `f` once per element in sequence
order: the call trace is a prefix of the sequence, the run is already
determined by that prefix (so once the callback exits or panics, no
further element is pulled and no further call to `f` occurs), a run in
which `f` called exit (this frame's own token) makes `LoopWithExit`
return normally, tokens of distinct frames are distinct, and any foreign
panic value — such as a nested inner frame's token — is never recognized
by this frame and is re-propagated outward unchanged. -/
theorem claim_C1 {α σ : Type} (loop : Enumerator α) (l : List α)
    (hrep : Represents loop l) (f : α → Res → σ → σ × Res)
    (supply : Nat) (s : σ) :
    (loopTrace l supply f s).2
        = l.take (loopTrace l supply f s).2.length
    ∧ runFromT ((l.take (loopTrace l supply f s).2.length))
        (fun e st => f e (some (PanicVal.token supply)) st) s
        = loopTrace l supply f s
    ∧ ((loopTrace l supply f s).1.2 = none →
        (loopTrace l supply f s).2 = l
        ∧ LoopWithExit loop supply f s = ((loopTrace l supply f s).1.1, none))
    ∧ ((loopTrace l supply f s).1.2 = some (PanicVal.token supply) →
        LoopWithExit loop supply f s = ((loopTrace l supply f s).1.1, none))
    ∧ (∀ p : PanicVal, (loopTrace l supply f s).1.2 = some p →
        p ≠ PanicVal.token supply →
        LoopWithExit loop supply f s = ((loopTrace l supply f s).1.1, some p))
    ∧ (∀ supply' : Nat, supply' ≠ supply →
        PanicVal.token supply' ≠ PanicVal.token supply) := by
  have hw : loop (supply + 1) σ
      (fun e st => f e (some (PanicVal.token supply)) st) s
      = runFrom l (fun e st => f e (some (PanicVal.token supply)) st) s :=
    hrep (supply + 1) σ _ s
  have hfst := runFromT_fst l
    (fun e st => f e (some (PanicVal.token supply)) st) s
  refine ⟨runFromT_trace_take l _ s, runFromT_trace_stable l _ s, ?_, ?_, ?_, ?_⟩
  · intro hnone
    refine ⟨runFromT_trace_all l _ s hnone, ?_⟩
    simp only [LoopWithExit, hw, ← hfst, loopTrace] at *
    cases ht : runFromT l (fun e st => f e (some (PanicVal.token supply)) st) s with
    | mk fr tr =>
      cases fr with
      | mk s1 r =>
        rw [ht] at hnone
        simp at hnone
        simp [ht, hnone]
  · intro htok
    simp only [LoopWithExit, hw, ← hfst, loopTrace] at *
    cases ht : runFromT l (fun e st => f e (some (PanicVal.token supply)) st) s with
    | mk fr tr =>
      cases fr with
      | mk s1 r =>
        rw [ht] at htok
        simp at htok
        simp [ht, htok]
  · intro p hp hne
    simp only [LoopWithExit, hw, ← hfst, loopTrace] at *
    cases ht : runFromT l (fun e st => f e (some (PanicVal.token supply)) st) s with
    | mk fr tr =>
      cases fr with
      | mk s1 r =>
        rw [ht] at hp
        simp at hp
        simp [ht, hp, hne]
  · intro supply' hne h
    exact hne (by injection h)

/-- Witness for claim C1: a concrete loop over `[1, 2, 3]` whose callback
accumulates elements until it exits at the element `2`; the loop returns
normally with only the first element accumulated and the third element
never seen. -/
theorem claim_C1_witness :
    LoopWithExit (From [1, 2, 3]) 5
      (fun e r st => if e = 2 then (st, r) else (st + e, none)) (0 : Int)
      = (1, none) :=
  (claim_C1 (From [1, 2, 3]) [1, 2, 3] (fun _ _ _ _ => rfl)
    (fun e r st => if e = 2 then (st, r) else (st + e, none)) 5 0).2.2.2.1 rfl

/-! ### Claim C3: Take -/

theorem takeBody_run {α σ : Type} (n : Int) (yield : α → σ → σ × Res)
    (tok : PanicVal) :
    ∀ (l : List α) (i : Int) (s : σ), i < n →
      ∃ j : Int,
        runFrom l (fun e st => takeBody n yield e (some tok) st) (i, s)
          = ((j, (runFrom (l.take (n - i).toNat) yield s).1),
             if (n - i).toNat ≤ l.length
                ∧ (runFrom (l.take (n - i).toNat) yield s).2 = none
             then some tok
             else (runFrom (l.take (n - i).toNat) yield s).2) := by
  intro l
  induction l with
  | nil =>
    intro i s hi
    refine ⟨i, ?_⟩
    simp [runFrom]
    rw [if_neg (by omega : ¬n ≤ i)]
  | cons x xs ih =>
    intro i s hi
    have hk : (n - i).toNat = (n - (i + 1)).toNat + 1 := by omega
    rw [hk, List.take_succ_cons]
    cases hy : yield x s with
    | mk s1 r =>
      cases r with
      | some p =>
        refine ⟨i + 1, ?_⟩
        simp [runFrom, takeBody, hy]
      | none =>
        by_cases hge : i + 1 ≥ n
        · refine ⟨i + 1, ?_⟩
          have h1 : (n - (i + 1)).toNat = 0 := by omega
          rw [h1, List.take_zero]
          simp [runFrom, takeBody, hy, hge]
        · obtain ⟨j, hj⟩ := ih (i + 1) s1 (by omega)
          refine ⟨j, ?_⟩
          simp only [takeBody] at hj
          simp only [runFrom, takeBody, hy, if_neg hge,
            List.length_cons]
          rw [hj]
          by_cases hc : (n - (i + 1)).toNat ≤ xs.length
              ∧ (runFrom (xs.take (n - (i + 1)).toNat) yield s1).2 = none
          · rw [if_pos hc, if_pos ⟨by omega, hc.2⟩]
          · rw [if_neg hc, if_neg (by
              intro hcc
              exact hc ⟨by omega, hcc.2⟩)]

theorem takeBody_pulls {α σ : Type} (n : Int) (yield : α → σ → σ × Res)
    (tok : PanicVal) :
    ∀ (l : List α) (i : Int) (s : σ), i < n →
      (runFromT l (fun e st => takeBody n yield e (some tok) st)
          (i, s)).2.length ≤ (n - i).toNat := by
  intro l
  induction l with
  | nil => intro i s hi; simp [runFromT]
  | cons x xs ih =>
    intro i s hi
    cases hy : yield x s with
    | mk s1 r =>
      cases r with
      | some p => simp [runFromT, takeBody, hy]; omega
      | none =>
        by_cases hge : i + 1 ≥ n
        · simp [runFromT, takeBody, hy, hge]; omega
        · have := ih (i + 1) s1 (by omega)
          simp only [takeBody] at this
          simp only [runFromT, takeBody, hy, if_neg hge,
            List.length_cons]
          omega

theorem takeBody_pulls_exact {α σ : Type} (n : Int)
    (yield : α → σ → σ × Res) (tok : PanicVal)
    (hnp : ∀ e st, (yield e st).2 = none) :
    ∀ (l : List α) (i : Int) (s : σ), i < n →
      (runFromT l (fun e st => takeBody n yield e (some tok) st)
          (i, s)).2.length = min (n - i).toNat l.length := by
  intro l
  induction l with
  | nil => intro i s hi; simp [runFromT]
  | cons x xs ih =>
    intro i s hi
    cases hy : yield x s with
    | mk s1 r =>
      cases r with
      | some p => have := hnp x s; rw [hy] at this; simp at this
      | none =>
        by_cases hge : i + 1 ≥ n
        · have h1 : (n - i).toNat = 1 := by omega
          simp [runFromT, takeBody, hy, hge, h1]
        · have := ih (i + 1) s1 (by omega)
          simp only [takeBody] at this
          simp only [runFromT, takeBody, hy, if_neg hge,
            List.length_cons]
          omega

/-- Claim C3: for every Enumerator representing a sequence `l` and every
integer `n`, `Take n` behaves exactly as the source of the first
`min(n, length)` elements of `l` (in order); when positive, at most `n`
elements are pulled from the upstream — exactly `min(n, length)` when the
downstream consumes without panicking, the non-local exit stopping the
pulling after the n-th element; and for `n ≤ 0` nothing is yielded and
the upstream Enumerator — any upstream whatsoever — is never invoked. -/
theorem claim_C3 {α σ : Type} (loop : Enumerator α) (l : List α)
    (hrep : Represents loop l) (n : Int) (supply : Nat)
    (yield : α → σ → σ × Res) (s : σ)
    (hy : ∀ e st, (yield e st).2 ≠ some (PanicVal.token supply)) :
    Take loop n supply σ yield s = runFrom (l.take n.toNat) yield s
    ∧ (0 < n →
        (loopTrace l supply (takeBody n yield) (0, s)).2.length ≤ n.toNat)
    ∧ ((∀ e st, (yield e st).2 = none) → 0 < n →
        (loopTrace l supply (takeBody n yield) (0, s)).2.length
          = min n.toNat l.length)
    ∧ (n ≤ 0 → ∀ loop' : Enumerator α,
        Take loop' n supply σ yield s = (s, none)) := by
  refine ⟨?_, ?_, ?_, ?_⟩
  · by_cases hn : n > 0
    · have hw := hrep (supply + 1) (Int × σ)
        (fun e st => takeBody n yield e (some (PanicVal.token supply)) st)
        ((0 : Int), s)
      obtain ⟨j, hj⟩ :=
        takeBody_run n yield (PanicVal.token supply) l 0 s (by omega)
      have hsub : n - (0 : Int) = n := by omega
      rw [hsub] at hj
      have hvtok := runFrom_no_tok (l.take n.toNat) yield s
        (PanicVal.token supply) hy
      simp only [Take, if_pos hn, LoopWithExit, hw, hj]
      by_cases hc : n.toNat ≤ l.length
          ∧ (runFrom (l.take n.toNat) yield s).2 = none
      · rw [if_pos hc]
        simp [hc.2.symm, Prod.ext_iff]
      · rw [if_neg hc]
        cases hv : (runFrom (l.take n.toNat) yield s).2 with
        | none => simp [Prod.ext_iff, hv]
        | some p =>
          have hne : p ≠ PanicVal.token supply := by
            intro h; rw [h] at hv; exact hvtok hv
          simp [hv, hne, Prod.ext_iff]
    · have h0 : n.toNat = 0 := by omega
      simp [Take, if_neg hn, h0, runFrom, hn]
  · intro hn
    have h := takeBody_pulls n yield (PanicVal.token supply) l 0 s (by omega)
    have hs : n - (0 : Int) = n := by omega
    rw [hs] at h
    exact h
  · intro hnp hn
    have h := takeBody_pulls_exact n yield (PanicVal.token supply) hnp l 0 s
      (by omega)
    have hs : n - (0 : Int) = n := by omega
    rw [hs] at h
    exact h
  · intro hn loop'
    have hne : ¬n > 0 := by omega
    simp [Take, hne]

/-- Witness for claim C3: taking two of three elements materializes
exactly the first two, pulling exactly two elements from upstream. -/
theorem claim_C3_witness :
    Take (From [(10 : Int), 20, 30]) 2 0 (List Int)
        (fun e acc => (acc ++ [e], none)) [] = ([10, 20], none)
    ∧ (loopTrace [(10 : Int), 20, 30] 0
        (takeBody 2 (fun e acc => (acc ++ [e], none)))
        (0, ([] : List Int))).2.length = 2 := by
  have h := claim_C3 (From [(10 : Int), 20, 30]) [10, 20, 30]
    (fun _ _ _ _ => rfl) 2 0 (fun e acc => (acc ++ [e], none)) []
    (fun _ _ => by simp)
  refine ⟨h.1.trans (by rfl), (h.2.2.1 (fun _ _ => rfl) (by decide)).trans (by decide)⟩

/-! ### Claim C4: TakeWhile -/

theorem takeWhileBody_run {α σ : Type} (predicate : α → Bool)
    (yield : α → σ → σ × Res) (tok : PanicVal) :
    ∀ (l : List α) (s : σ),
      runFrom l (fun e st => takeWhileBody predicate yield e (some tok) st) s
        = (if (l.takeWhile predicate).length < l.length
              ∧ (runFrom (l.takeWhile predicate) yield s).2 = none
           then ((runFrom (l.takeWhile predicate) yield s).1, some tok)
           else runFrom (l.takeWhile predicate) yield s) := by
  intro l
  induction l with
  | nil => intro s; simp [runFrom]
  | cons x xs ih =>
    intro s
    by_cases hp : predicate x
    · rw [List.takeWhile_cons_of_pos hp]
      cases hy : yield x s with
      | mk s1 r =>
        cases r with
        | some p => simp [runFrom, takeWhileBody, hp, hy]
        | none =>
          have := ih s1
          simp only [takeWhileBody] at this
          simp only [runFrom, takeWhileBody, hp, if_pos, hy,
            List.length_cons, this]
          by_cases hc : (xs.takeWhile predicate).length < xs.length
              ∧ (runFrom (xs.takeWhile predicate) yield s1).2 = none
          · rw [if_pos hc, if_pos ⟨by omega, hc.2⟩]
          · rw [if_neg hc, if_neg (by
              intro hcc
              exact hc ⟨by omega, hcc.2⟩)]
    · rw [List.takeWhile_cons_of_neg hp]
      simp [runFrom, takeWhileBody, hp]

theorem takeWhileBody_pulls {α σ : Type} (predicate : α → Bool)
    (yield : α → σ → σ × Res) (tok : PanicVal)
    (hnp : ∀ e st, (yield e st).2 = none) :
    ∀ (l : List α) (s : σ),
      (runFromT l
          (fun e st => takeWhileBody predicate yield e (some tok) st) s).2
        = l.take (min ((l.takeWhile predicate).length + 1) l.length) := by
  intro l
  induction l with
  | nil => intro s; simp [runFromT]
  | cons x xs ih =>
    intro s
    by_cases hp : predicate x
    · cases hy : yield x s with
      | mk s1 r =>
        cases r with
        | some p => have := hnp x s; rw [hy] at this; simp at this
        | none =>
          have hmin : min ((List.takeWhile predicate (x :: xs)).length + 1)
                (x :: xs).length
              = (min ((xs.takeWhile predicate).length + 1) xs.length) + 1 := by
            rw [List.takeWhile_cons_of_pos hp]
            simp only [List.length_cons]
            omega
          rw [hmin, List.take_succ_cons]
          have := ih s1
          simp only [takeWhileBody] at this
          simp [runFromT, takeWhileBody, hp, hy, this]
    · have hmin : min ((List.takeWhile predicate (x :: xs)).length + 1)
          (x :: xs).length = 1 := by
        rw [List.takeWhile_cons_of_neg hp]
        simp only [List.length_nil, List.length_cons]
        omega
      rw [hmin]
      simp [runFromT, takeWhileBody, hp]

/-- Claim C4: for every Enumerator representing a sequence `l` and every
predicate, `TakeWhile` behaves exactly as the source of the longest
prefix of `l` on which the predicate holds; and (when the downstream
consumes without panicking) the elements pulled from upstream are exactly
that prefix plus the first failing element when one exists — the failing
element is pulled but not yielded, and nothing after it is pulled. -/
theorem claim_C4 {α σ : Type} (loop : Enumerator α) (l : List α)
    (hrep : Represents loop l) (predicate : α → Bool) (supply : Nat)
    (yield : α → σ → σ × Res) (s : σ)
    (hy : ∀ e st, (yield e st).2 ≠ some (PanicVal.token supply)) :
    TakeWhile loop predicate supply σ yield s
        = runFrom (l.takeWhile predicate) yield s
    ∧ ((∀ e st, (yield e st).2 = none) →
        (loopTrace l supply (takeWhileBody predicate yield) s).2
          = l.take (min ((l.takeWhile predicate).length + 1) l.length)) := by
  constructor
  · have hw := hrep (supply + 1) σ
      (fun e st => takeWhileBody predicate yield e
        (some (PanicVal.token supply)) st) s
    have hrun := takeWhileBody_run predicate yield (PanicVal.token supply) l s
    have hvtok := runFrom_no_tok (l.takeWhile predicate) yield s
      (PanicVal.token supply) hy
    simp only [TakeWhile, LoopWithExit, hw, hrun]
    by_cases hc : (l.takeWhile predicate).length < l.length
        ∧ (runFrom (l.takeWhile predicate) yield s).2 = none
    · rw [if_pos hc]
      simp [hc.2.symm, Prod.ext_iff]
    · rw [if_neg hc]
      cases hv : runFrom (l.takeWhile predicate) yield s with
      | mk s1 r2 =>
        cases r2 with
        | none => simp [hv]
        | some p =>
          have hne : p ≠ PanicVal.token supply := by
            intro h
            apply hvtok
            rw [hv, h]
          simp [hv, hne]
  · intro hnp
    exact takeWhileBody_pulls predicate yield (PanicVal.token supply) hnp l s

/-- Witness for claim C4: over `[1, 2, 9, 3]` with the predicate
"less than 5", exactly `[1, 2]` is yielded and `[1, 2, 9]` is pulled:
the failing element `9` is pulled but not yielded and `3` is never
pulled. -/
theorem claim_C4_witness :
    TakeWhile (From [(1 : Int), 2, 9, 3]) (fun x => x < 5) 0 (List Int)
        (fun e acc => (acc ++ [e], none)) [] = ([1, 2], none)
    ∧ (loopTrace [(1 : Int), 2, 9, 3] 0
        (takeWhileBody (fun x => x < 5) (fun e acc => (acc ++ [e], none)))
        ([] : List Int)).2 = [1, 2, 9] := by
  have h := claim_C4 (From [(1 : Int), 2, 9, 3]) [1, 2, 9, 3]
    (fun _ _ _ _ => rfl) (fun x => x < 5) 0
    (fun e acc => (acc ++ [e], none)) [] (fun _ _ => by simp)
  exact ⟨h.1.trans (by rfl), (h.2 (fun _ _ => rfl)).trans (by rfl)⟩

/-! ### Claim C9: SkipWhile -/

theorem skipWhileBody_run_tail {α σ : Type} (predicate : α → Bool)
    (yield : α → σ → σ × Res) :
    ∀ (l : List α) (s : σ),
      runFrom l (skipWhileBody predicate yield) (false, s)
        = ((false, (runFrom l yield s).1), (runFrom l yield s).2) := by
  intro l
  induction l with
  | nil => intro s; simp [runFrom]
  | cons x xs ih =>
    intro s
    cases hy : yield x s with
    | mk s1 r =>
      cases r with
      | none => simp [runFrom, skipWhileBody, hy, ih]
      | some p => simp [runFrom, skipWhileBody, hy]

theorem skipWhileBody_run {α σ : Type} (predicate : α → Bool)
    (yield : α → σ → σ × Res) :
    ∀ (l : List α) (s : σ),
      ∃ b : Bool,
        runFrom l (skipWhileBody predicate yield) (true, s)
          = ((b, (runFrom (l.dropWhile predicate) yield s).1),
             (runFrom (l.dropWhile predicate) yield s).2) := by
  intro l
  induction l with
  | nil => intro s; exact ⟨true, by simp [runFrom]⟩
  | cons x xs ih =>
    intro s
    by_cases hp : predicate x
    · obtain ⟨b, hb⟩ := ih s
      refine ⟨b, ?_⟩
      rw [List.dropWhile_cons_of_pos hp]
      simp [runFrom, skipWhileBody, hp, hb]
    · refine ⟨false, ?_⟩
      rw [List.dropWhile_cons_of_neg hp]
      cases hy : yield x s with
      | mk s1 r =>
        cases r with
        | none =>
          simp [runFrom, skipWhileBody, hp, hy,
            skipWhileBody_run_tail predicate yield xs s1]
        | some p => simp [runFrom, skipWhileBody, hp, hy]

theorem skipWhile_behaves {α σ : Type} (loop : Enumerator α) (l : List α)
    (hrep : Represents loop l) (predicate : α → Bool) (supply : Nat)
    (yield : α → σ → σ × Res) (s : σ) :
    SkipWhile loop predicate supply σ yield s
      = runFrom (l.dropWhile predicate) yield s := by
  have hw := hrep supply (Bool × σ) (skipWhileBody predicate yield) (true, s)
  obtain ⟨b, hb⟩ := skipWhileBody_run predicate yield l s
  simp [SkipWhile, hw, hb]

theorem dropWhile_congr_take {α : Type} (predicate pred' : α → Bool) :
    ∀ l : List α,
      (∀ e ∈ l.take ((l.takeWhile predicate).length + 1),
        predicate e = pred' e) →
      l.dropWhile predicate = l.dropWhile pred' := by
  intro l
  induction l with
  | nil => intro _; rfl
  | cons x xs ih =>
    intro h
    have hx : predicate x = pred' x := by
      apply h
      simp
    by_cases hp : predicate x
    · have hp' : pred' x = true := by rw [← hx]; exact hp
      rw [List.dropWhile_cons_of_pos hp, List.dropWhile_cons_of_pos hp']
      apply ih
      intro e he
      apply h
      rw [List.takeWhile_cons_of_pos hp]
      simpa using List.mem_cons_of_mem x he
    · have hp' : ¬pred' x = true := by rw [← hx]; exact hp
      rw [List.dropWhile_cons_of_neg hp, List.dropWhile_cons_of_neg hp']

theorem dropWhile_head_fails {α : Type} (predicate : α → Bool) :
    ∀ (l : List α) (x : α),
      (l.dropWhile predicate).head? = some x → predicate x = false := by
  intro l
  induction l with
  | nil => intro x h; simp at h
  | cons y ys ih =>
    intro x h
    by_cases hp : predicate y
    · rw [List.dropWhile_cons_of_pos hp] at h
      exact ih x h
    · rw [List.dropWhile_cons_of_neg hp] at h
      simp at h
      rw [← h]
      simpa using hp

/-- Claim C9: for every Enumerator representing a sequence `l` and every
predicate, `SkipWhile` behaves exactly as the source of `l` with its
maximal leading run of elements satisfying the predicate removed: the
first failing element and all subsequent elements are yielded unchanged;
the materialized result is empty or its first element fails the
predicate; and the behaviour depends on the predicate only through its
values on the discarded elements and the first failing element. -/
theorem claim_C9 {α σ : Type} (loop : Enumerator α) (l : List α)
    (hrep : Represents loop l) (predicate : α → Bool) (supply : Nat)
    (yield : α → σ → σ × Res) (s : σ) :
    SkipWhile loop predicate supply σ yield s
        = runFrom (l.dropWhile predicate) yield s
    ∧ (∀ x : α, (ToSlice (SkipWhile loop predicate)).1.head? = some x →
        predicate x = false)
    ∧ (∀ pred' : α → Bool,
        (∀ e ∈ l.take ((l.takeWhile predicate).length + 1),
          predicate e = pred' e) →
        SkipWhile loop predicate supply σ yield s
          = SkipWhile loop pred' supply σ yield s) := by
  refine ⟨skipWhile_behaves loop l hrep predicate supply yield s, ?_, ?_⟩
  · intro x hx
    have hts : ToSlice (SkipWhile loop predicate)
        = (l.dropWhile predicate, none) := by
      have := skipWhile_behaves loop l hrep predicate 0
        (fun e acc => (acc ++ [e], none)) ([] : List α)
      rw [ToSlice, ToList, this, runFrom_append]
      simp
    rw [hts] at hx
    exact dropWhile_head_fails predicate l x hx
  · intro pred' hagree
    rw [skipWhile_behaves loop l hrep predicate supply yield s,
      skipWhile_behaves loop l hrep pred' supply yield s,
      dropWhile_congr_take predicate pred' l hagree]

/-- Witness for claim C9: over `[1, 2, 9, 3]` with the predicate
"less than 5", the leading run `[1, 2]` is discarded and `[9, 3]` is
yielded, starting with the failing element `9`. -/
theorem claim_C9_witness :
    SkipWhile (From [(1 : Int), 2, 9, 3]) (fun x => x < 5) 0 (List Int)
        (fun e acc => (acc ++ [e], none)) [] = ([9, 3], none) :=
  (claim_C9 (From [(1 : Int), 2, 9, 3]) [1, 2, 9, 3] (fun _ _ _ _ => rfl)
    (fun x => x < 5) 0 (fun e acc => (acc ++ [e], none)) []).1.trans (by rfl)

/-! ### Claim C10: Skip with a non-positive count -/

theorem skipBody_nonpos_run {α σ : Type} (n : Int)
    (yield : α → σ → σ × Res) :
    ∀ (l : List α) (i : Int) (s : σ), n ≤ i →
      runFrom l (skipBody n yield) (i, s)
        = ((i, (runFrom l yield s).1), (runFrom l yield s).2) := by
  intro l
  induction l with
  | nil => intro i s _; simp [runFrom]
  | cons x xs ih =>
    intro i s hn
    have hge : i ≥ n := hn
    cases hy : yield x s with
    | mk s1 r =>
      cases r with
      | none => simp [runFrom, skipBody, hy, hge, ih i s1 hn]
      | some p => simp [runFrom, skipBody, hy, hge]

/-- Claim C10: for every Enumerator representing a sequence and every
integer `n ≤ 0`, `Skip n` is the identity transformation: it runs
exactly as the upstream itself, yielding every element unchanged and in
order. -/
theorem claim_C10 {α σ : Type} (loop : Enumerator α) (l : List α)
    (hrep : Represents loop l) (n : Int) (hn : n ≤ 0) (supply : Nat)
    (yield : α → σ → σ × Res) (s : σ) :
    Skip loop n supply σ yield s = loop supply σ yield s := by
  have hw := hrep supply (Int × σ) (skipBody n yield) (0, s)
  have hr := skipBody_nonpos_run n yield l 0 s (by omega)
  rw [hrep supply σ yield s]
  simp [Skip, hw, hr]

/-- Witness for claim C10: skipping `-1` elements of `[7, 8]` yields
`[7, 8]` itself. -/
theorem claim_C10_witness :
    Skip (From [(7 : Int), 8]) (-1) 0 (List Int)
        (fun e acc => (acc ++ [e], none)) []
      = From [(7 : Int), 8] 0 (List Int) (fun e acc => (acc ++ [e], none)) [] :=
  claim_C10 (From [(7 : Int), 8]) [7, 8] (fun _ _ _ _ => rfl) (-1)
    (by omega) 0 (fun e acc => (acc ++ [e], none)) []

/-! ### Claim C8: Concat -/

theorem runFrom_append_split {α σ : Type} (la lb : List α)
    (body : α → σ → σ × Res) (s : σ) :
    runFrom (la ++ lb) body s
      = (match runFrom la body s with
         | (s1, none) => runFrom lb body s1
         | (s1, some p) => (s1, some p)) := by
  induction la generalizing s with
  | nil => simp [runFrom]
  | cons x xs ih =>
    cases hb : body x s with
    | mk s1 r => cases r <;> simp [runFrom, hb, ih]

/-- Claim C8: for Enumerators representing finite sequences, the
materialization of their concatenation is the concatenation of their
materializations, and more generally `Concat` behaves as the source of
the appended sequences, all of the first then all of the second; and the
second Enumerator is never invoked before the first one's run has
completed — in particular a run of the first that never completes
normally determines the whole result, whatever the second is. -/
theorem claim_C8 {α : Type} (A B : Enumerator α) (la lb : List α)
    (hA : Represents A la) (hB : Represents B lb) :
    ToSlice (Concat A B) = ((ToSlice A).1 ++ (ToSlice B).1, none)
    ∧ (∀ (supply : Nat) (σ : Type) (yield : α → σ → σ × Res) (s : σ),
        Concat A B supply σ yield s = runFrom (la ++ lb) yield s)
    ∧ (∀ (α' : Type) (A' B' : Enumerator α') (supply : Nat) (σ : Type)
        (yield : α' → σ → σ × Res) (s : σ) (p : PanicVal),
        (A' supply σ yield s).2 = some p →
        Concat A' B' supply σ yield s = A' supply σ yield s) := by
  have hgen : ∀ (supply : Nat) (σ : Type) (yield : α → σ → σ × Res) (s : σ),
      Concat A B supply σ yield s = runFrom (la ++ lb) yield s := by
    intro supply σ yield s
    rw [runFrom_append_split]
    simp only [Concat, hA supply σ yield s]
    cases hv : runFrom la yield s with
    | mk s1 r => cases r <;> simp [hB supply σ yield s1]
  refine ⟨?_, hgen, ?_⟩
  · rw [ToSlice, ToList, hgen 0 (List α) (fun e acc => (acc ++ [e], none)) [],
      runFrom_append]
    rw [ToSlice, ToList, hA 0 (List α) (fun e acc => (acc ++ [e], none)) [],
      runFrom_append]
    rw [ToSlice, ToList, hB 0 (List α) (fun e acc => (acc ++ [e], none)) [],
      runFrom_append]
    simp
  · intro α' A' B' supply σ yield s p hp
    have hv : A' supply σ yield s = ((A' supply σ yield s).1, some p) := by
      rw [← hp]
    simp only [Concat]
    rw [hv]

/-- Witness for claim C8: concatenating `[1, 2]` and `[3]` materializes
to `[1, 2, 3]`. -/
theorem claim_C8_witness :
    ToSlice (Concat (From [(1 : Int), 2]) (From [3])) = ([1, 2, 3], none) :=
  (claim_C8 (From [(1 : Int), 2]) (From [3]) [1, 2] [3]
    (fun _ _ _ _ => rfl) (fun _ _ _ _ => rfl)).1.trans (by rfl)

/-! ### Claim C5: Zip -/

theorem zipBody_run {T U R σ : Type} (f : T → U → R)
    (yield : R → σ → σ × Res) (tok : PanicVal) :
    ∀ (la : List T) (lb : List U) (s : σ),
      ∃ rest : List U,
        runFrom la (fun e st => zipBody f yield e (some tok) st) (lb, s)
          = ((rest, (runFrom (List.zipWith f la lb) yield s).1),
             if lb.length < la.length
                ∧ (runFrom (List.zipWith f la lb) yield s).2 = none
             then some tok
             else (runFrom (List.zipWith f la lb) yield s).2) := by
  intro la
  induction la with
  | nil =>
    intro lb s
    refine ⟨lb, ?_⟩
    simp [runFrom]
  | cons a as ih =>
    intro lb s
    cases lb with
    | nil =>
      refine ⟨[], ?_⟩
      simp [runFrom, zipBody]
    | cons b bs =>
      cases hy : yield (f a b) s with
      | mk s1 r =>
        cases r with
        | some p =>
          refine ⟨bs, ?_⟩
          simp [runFrom, zipBody, hy]
        | none =>
          obtain ⟨rest, hrest⟩ := ih bs s1
          refine ⟨rest, ?_⟩
          simp only [zipBody] at hrest
          simp only [runFrom, zipBody, hy, List.zipWith_cons_cons,
            List.length_cons, hrest]
          by_cases hc : bs.length < as.length
              ∧ (runFrom (List.zipWith f as bs) yield s1).2 = none
          · rw [if_pos hc, if_pos ⟨by omega, hc.2⟩]
          · rw [if_neg hc, if_neg (by
              intro hcc
              exact hc ⟨by omega, hcc.2⟩)]

theorem zip_behaves {T U R σ : Type} (f : T → U → R) (A : Enumerator T)
    (la : List T) (hA : Represents A la) (lb : List U) (supply : Nat)
    (yield : R → σ → σ × Res) (s : σ)
    (hy : ∀ e st, (yield e st).2 ≠ some (PanicVal.token supply)) :
    Zip f A lb supply σ yield s
      = runFrom (List.zipWith f la lb) yield s := by
  have hw := hA (supply + 1) (List U × σ)
    (fun e st => zipBody f yield e (some (PanicVal.token supply)) st) (lb, s)
  obtain ⟨rest, hrest⟩ :=
    zipBody_run f yield (PanicVal.token supply) la lb s
  have hvtok := runFrom_no_tok (List.zipWith f la lb) yield s
    (PanicVal.token supply) hy
  simp only [Zip, LoopWithExit, hw, hrest]
  by_cases hc : lb.length < la.length
      ∧ (runFrom (List.zipWith f la lb) yield s).2 = none
  · rw [if_pos hc]
    simp [hc.2.symm, Prod.ext_iff]
  · rw [if_neg hc]
    cases hv : runFrom (List.zipWith f la lb) yield s with
    | mk s1 r2 =>
      cases r2 with
      | none => simp [hv]
      | some p =>
        have hne : p ≠ PanicVal.token supply := by
          intro h
          apply hvtok
          rw [hv, h]
        simp [hv, hne]

/-- Claim C5: for every Enumerator representing a finite sequence `la`
paired with a secondary sequence `lb`, `Zip` behaves exactly as the
source of the positionally combined elements, which has
`min(length la, length lb)` elements; in particular zipping addition
over `[3, 1, 4]` and `[2, 7, 1, 8, 2, 8]` yields `[5, 8, 5]`, and the
same holds with the shorter side swapped to the other argument. -/
theorem claim_C5 {T U R σ : Type} (f : T → U → R) (A : Enumerator T)
    (la : List T) (hA : Represents A la) (lb : List U) (supply : Nat)
    (yield : R → σ → σ × Res) (s : σ)
    (hy : ∀ e st, (yield e st).2 ≠ some (PanicVal.token supply)) :
    Zip f A lb supply σ yield s = runFrom (List.zipWith f la lb) yield s
    ∧ (ToSlice (Zip f A lb)).1.length = min la.length lb.length
    ∧ ToSlice (Zip (fun a b => a + b) (From [(3 : Int), 1, 4])
        [(2 : Int), 7, 1, 8, 2, 8]) = ([5, 8, 5], none)
    ∧ ToSlice (Zip (fun a b => a + b) (From [(2 : Int), 7, 1, 8, 2, 8])
        [(3 : Int), 1, 4]) = ([5, 8, 5], none) := by
  refine ⟨zip_behaves f A la hA lb supply yield s hy, ?_, by decide, by decide⟩
  rw [ToSlice, ToList,
    zip_behaves f A la hA lb 0 (fun e acc => (acc ++ [e], none)) []
      (fun _ _ => by simp),
    runFrom_append]
  simp

/-- Witness for claim C5: zipping addition over `[3, 1, 4]` and
`[2, 7, 1, 8, 2, 8]` behaves as the source of `[5, 8, 5]` and
materializes to three elements. -/
theorem claim_C5_witness :
    Zip (fun a b => a + b) (From [(3 : Int), 1, 4]) [(2 : Int), 7, 1, 8, 2, 8]
        0 (List Int) (fun e acc => (acc ++ [e], none)) [] = ([5, 8, 5], none)
    ∧ (ToSlice (Zip (fun a b => a + b) (From [(3 : Int), 1, 4])
        [(2 : Int), 7, 1, 8, 2, 8])).1.length = 3 := by
  have h := claim_C5 (fun a b => a + b) (From [(3 : Int), 1, 4]) [3, 1, 4]
    (fun _ _ _ _ => rfl) [(2 : Int), 7, 1, 8, 2, 8] 0
    (fun e acc => (acc ++ [e], none)) [] (fun _ _ => by simp)
  exact ⟨h.1.trans (by rfl), h.2.1.trans (by rfl)⟩

/-! ### Claim C7: AggregateWithExit -/

theorem aggExitBody_run {S T : Type} (f : S → T → S ⊕ S) (tok : PanicVal) :
    ∀ (l : List T) (acc : S),
      runFrom l (fun e st => aggExitBody f e (some tok) st) acc
          = (aggExitSpec f acc l, none)
      ∨ runFrom l (fun e st => aggExitBody f e (some tok) st) acc
          = (aggExitSpec f acc l, some tok) := by
  intro l
  induction l with
  | nil => intro acc; left; simp [runFrom, aggExitSpec]
  | cons x xs ih =>
    intro acc
    cases hf : f acc x with
    | inl v =>
      rcases ih v with h | h
      · left
        simp only [aggExitBody] at h
        simp [runFrom, aggExitBody, aggExitSpec, hf, h]
      · right
        simp only [aggExitBody] at h
        simp [runFrom, aggExitBody, aggExitSpec, hf, h]
    | inr x0 =>
      right; simp [runFrom, aggExitBody, aggExitSpec, hf]

theorem runFrom_foldl {S T : Type} (g : S → T → S) :
    ∀ (l : List T) (acc : S),
      runFrom l (fun e acc => (g acc e, none)) acc
        = (List.foldl g acc l, none) := by
  intro l
  induction l with
  | nil => intro acc; simp [runFrom]
  | cons x xs ih => intro acc; simp [runFrom, ih]

theorem aggExitSpec_foldl {S T : Type} (g : S → T → S) :
    ∀ (l : List T) (acc : S),
      aggExitSpec (fun a b => Sum.inl (g a b)) acc l = List.foldl g acc l := by
  intro l
  induction l with
  | nil => intro acc; simp [aggExitSpec]
  | cons x xs ih => intro acc; simp [aggExitSpec, ih]

/-- Claim C7: for every Enumerator representing a sequence,
`AggregateWithExit` computes the fold in which a callback exit stops the
accumulation at once with the exit's value as the overall result — the
value the callback would have returned for that element is discarded,
and the elements after the exiting one are irrelevant (not consumed);
when the callback never exits it agrees with `Aggregate`; and over
`[1, 2, 3, FAIL, 4, 5]` with multiplication from seed `100`, exiting
with the negated running product at the sentinel, the result is
`-600`. -/
theorem claim_C7 {S T : Type} (f : S → T → S ⊕ S) (seed : S)
    (loop : Enumerator T) (l : List T) (hrep : Represents loop l) :
    AggregateWithExit f seed loop = (aggExitSpec f seed l, none)
    ∧ (∀ (acc v : S) (e : T) (l2 l2' : List T), f acc e = Sum.inr v →
        aggExitSpec f acc (e :: l2) = v
        ∧ aggExitSpec f acc (e :: l2) = aggExitSpec f acc (e :: l2'))
    ∧ (∀ (g : S → T → S) (seed' : S),
        AggregateWithExit (fun a b => Sum.inl (g a b)) seed' loop
          = Aggregate g seed' loop)
    ∧ AggregateWithExit
        (fun acc e => match e with
          | Sum.inl m => Sum.inl (acc * m)
          | Sum.inr _ => Sum.inr (-acc))
        (100 : Int)
        (From [Sum.inl 1, Sum.inl 2, Sum.inl 3, Sum.inr (), Sum.inl 4,
          Sum.inl 5])
      = (-600, none) := by
  have hgen : ∀ (f' : S → T → S ⊕ S) (seed' : S),
      AggregateWithExit f' seed' loop = (aggExitSpec f' seed' l, none) := by
    intro f' seed'
    have hw := hrep 1 S
      (fun e st => aggExitBody f' e (some (PanicVal.token 0)) st) seed'
    rcases aggExitBody_run f' (PanicVal.token 0) l seed' with h | h <;>
      simp [AggregateWithExit, LoopWithExit, hw, h]
  refine ⟨hgen f seed, ?_, ?_, by decide⟩
  · intro acc v e l2 l2' hf
    constructor <;> simp [aggExitSpec, hf]
  · intro g seed'
    rw [hgen (fun a b => Sum.inl (g a b)) seed', aggExitSpec_foldl,
      Aggregate, hrep 0 S (fun e acc => (g acc e, none)) seed',
      runFrom_foldl]

/-- Witness for claim C7: the test-suite example, multiplying from seed
`100` over `[1, 2, FAIL, 3, 4, 5]` and exiting with the negated running
product at the sentinel, gives `-200`. -/
theorem claim_C7_witness :
    AggregateWithExit
        (fun acc e => match e with
          | Sum.inl m => Sum.inl (acc * m)
          | Sum.inr _ => Sum.inr (-acc))
        (100 : Int)
        (From [Sum.inl 1, Sum.inl 2, Sum.inr (), Sum.inl 3, Sum.inl 4,
          Sum.inl 5])
      = (-200, none) :=
  (claim_C7
    (fun acc e => match e with
      | Sum.inl m => Sum.inl (acc * m)
      | Sum.inr _ => Sum.inr (-acc))
    (100 : Int)
    (From [Sum.inl 1, Sum.inl 2, Sum.inr (), Sum.inl 3, Sum.inl 4,
      Sum.inl 5])
    [Sum.inl 1, Sum.inl 2, Sum.inr (), Sum.inl 3, Sum.inl 4, Sum.inl 5]
    (fun _ _ _ _ => rfl)).1.trans (by decide)

/-! ### Claim C2: adapter failures pass every frame, exits only their own -/

/-- Claim C2: an adapter failure — a panic with a non-token value, such
as the scanner error panicked by `FromReader` — that reaches a
`LoopWithExit` frame is re-propagated by that frame unchanged, never
absorbed by the exit-token catch, while a frame's own exit token results
in a normal return; concretely, in a pipeline of `AggregateWithExit`
over `Take` over `TakeWhile` over `Zip` over a failing reader, the
reader's failure passes all four frames to the original caller, and in
the same pipeline truncated by `Take 1` the exit token born in the
`Take` frame passes the `Zip` and `TakeWhile` frames unrecognized and is
caught by its own frame, giving a normal return. -/
theorem claim_C2 :
    (∀ (α σ : Type) (loop : Enumerator α) (supply : Nat)
        (f : α → Res → σ → σ × Res) (s s' : σ) (e : Nat),
        loop (supply + 1) σ
            (fun x st => f x (some (PanicVal.token supply)) st) s
          = (s', some (PanicVal.err e)) →
        LoopWithExit loop supply f s = (s', some (PanicVal.err e)))
    ∧ (∀ (α σ : Type) (loop : Enumerator α) (supply : Nat)
        (f : α → Res → σ → σ × Res) (s s' : σ),
        loop (supply + 1) σ
            (fun x st => f x (some (PanicVal.token supply)) st) s
          = (s', some (PanicVal.token supply)) →
        LoopWithExit loop supply f s = (s', none))
    ∧ AggregateWithExit (fun acc e => Sum.inl (acc ++ [e]))
        ([] : List String)
        (Take (TakeWhile (Zip (fun a b => a ++ b)
            (FromReader ["a", "b"] (some 7)) ["x", "y", "z"])
          (fun _ => true)) 5)
      = (["ax", "by"], some (PanicVal.err 7))
    ∧ AggregateWithExit (fun acc e => Sum.inl (acc ++ [e]))
        ([] : List String)
        (Take (TakeWhile (Zip (fun a b => a ++ b)
            (FromReader ["a", "b"] (some 7)) ["x", "y", "z"])
          (fun _ => true)) 1)
      = (["ax"], none) := by
  refine ⟨?_, ?_, by decide, by decide⟩
  · intro α σ loop supply f s s' e h
    simp [LoopWithExit, h]
  · intro α σ loop supply f s s' h
    simp [LoopWithExit, h]

/-- Witness for claim C2: a failing reader under a single exit-capable
frame: the scanner error code `3` passes the frame to the caller after
the single line was consumed. -/
theorem claim_C2_witness :
    LoopWithExit (FromReader ["u"] (some 3)) 4
      (fun e _ st => (st ++ [e], none)) ([] : List String)
      = (["u"], some (PanicVal.err 3)) :=
  claim_C2.1 String (List String) (FromReader ["u"] (some 3)) 4
    (fun e _ st => (st ++ [e], none)) [] ["u"] 3 (by rfl)

/-! ### Claim C6: the Zip handshake always tears the worker down -/

theorem zipStep_sound {T U R σ : Type} (f : T → U → R)
    (yield : R → σ → σ × Res) (c : ZipConf T U σ) (hInv : zipInv c)
    (hnd : zipDone c = false) :
    zipStep f yield c ≠ [] ∧
      ∀ c' ∈ zipStep f yield c,
        zipInv c' ∧ zipMeasure c' < zipMeasure c := by
  obtain ⟨p, w, q⟩ := c
  cases p with
  | run as s =>
    cases w with
    | recv bs =>
      cases q with
      | empty =>
        cases as with
        | nil =>
          refine ⟨by simp [zipStep, zipPrimSteps, zipWorkSteps], ?_⟩
          intro c' hc'
          cases bs with
          | nil =>
            simp [zipStep, zipPrimSteps, zipWorkSteps] at hc'
            rcases hc' with rfl | rfl <;>
              exact ⟨trivial, by simp [zipMeasure] <;> omega⟩
          | cons b bs' =>
            simp [zipStep, zipPrimSteps, zipWorkSteps] at hc'
            subst hc'
            exact ⟨trivial, by simp [zipMeasure] <;> omega⟩
        | cons a as' =>
          refine ⟨by simp [zipStep, zipPrimSteps, zipWorkSteps], ?_⟩
          intro c' hc'
          cases bs with
          | nil =>
            simp [zipStep, zipPrimSteps, zipWorkSteps] at hc'
            rcases hc' with rfl | rfl <;>
              exact ⟨trivial, by simp [zipMeasure] <;> omega⟩
          | cons b bs' =>
            simp [zipStep, zipPrimSteps, zipWorkSteps] at hc'
            subst hc'
            exact ⟨trivial, by simp [zipMeasure] <;> omega⟩
      | full => simp [zipInv] at hInv
      | closed => simp [zipInv] at hInv
    | send b bs => cases q <;> simp [zipInv] at hInv
    | stopped =>
      cases q with
      | empty =>
        cases as with
        | nil =>
          refine ⟨by simp [zipStep, zipPrimSteps, zipWorkSteps], ?_⟩
          intro c' hc'
          simp [zipStep, zipPrimSteps, zipWorkSteps] at hc'
          subst hc'
          exact ⟨trivial, by simp [zipMeasure] <;> omega⟩
        | cons a as' =>
          refine ⟨by simp [zipStep, zipPrimSteps, zipWorkSteps], ?_⟩
          intro c' hc'
          simp [zipStep, zipPrimSteps, zipWorkSteps] at hc'
          subst hc'
          exact ⟨trivial, by simp [zipMeasure] <;> omega⟩
      | full => simp [zipInv] at hInv
      | closed => simp [zipInv] at hInv
  | await a as s =>
    cases w with
    | recv bs =>
      cases q with
      | empty => simp [zipInv] at hInv
      | full =>
        cases bs with
        | nil =>
          refine ⟨by simp [zipStep, zipPrimSteps, zipWorkSteps], ?_⟩
          intro c' hc'
          simp [zipStep, zipPrimSteps, zipWorkSteps] at hc'
          subst hc'
          exact ⟨trivial, by simp [zipMeasure] <;> omega⟩
        | cons b bs' =>
          refine ⟨by simp [zipStep, zipPrimSteps, zipWorkSteps], ?_⟩
          intro c' hc'
          simp [zipStep, zipPrimSteps, zipWorkSteps] at hc'
          subst hc'
          exact ⟨trivial, by simp [zipMeasure] <;> omega⟩
      | closed => simp [zipInv] at hInv
    | send b bs =>
      cases q with
      | empty =>
        cases hy : yield (f a b) s with
        | mk s1 r =>
          cases r with
          | none =>
            refine ⟨by simp [zipStep, zipPrimSteps, zipWorkSteps, hy], ?_⟩
            intro c' hc'
            simp [zipStep, zipPrimSteps, zipWorkSteps, hy] at hc'
            subst hc'
            exact ⟨trivial, by simp [zipMeasure] <;> omega⟩
          | some pv =>
            refine ⟨by simp [zipStep, zipPrimSteps, zipWorkSteps, hy], ?_⟩
            intro c' hc'
            simp [zipStep, zipPrimSteps, zipWorkSteps, hy] at hc'
            subst hc'
            exact ⟨trivial, by simp [zipMeasure] <;> omega⟩
      | full => simp [zipInv] at hInv
      | closed => simp [zipInv] at hInv
    | stopped =>
      cases q with
      | empty => simp [zipInv] at hInv
      | full =>
        refine ⟨by simp [zipStep, zipPrimSteps, zipWorkSteps], ?_⟩
        intro c' hc'
        simp [zipStep, zipPrimSteps, zipWorkSteps] at hc'
        subst hc'
        exact ⟨trivial, by simp [zipMeasure] <;> omega⟩
      | closed => simp [zipInv] at hInv
  | stopped =>
    cases w with
    | recv bs =>
      cases q with
      | empty => simp [zipInv] at hInv
      | full => simp [zipInv] at hInv
      | closed =>
        cases bs with
        | nil =>
          refine ⟨by simp [zipStep, zipPrimSteps, zipWorkSteps], ?_⟩
          intro c' hc'
          simp [zipStep, zipPrimSteps, zipWorkSteps] at hc'
          subst hc'
          exact ⟨trivial, by simp [zipMeasure] <;> omega⟩
        | cons b bs' =>
          refine ⟨by simp [zipStep, zipPrimSteps, zipWorkSteps], ?_⟩
          intro c' hc'
          simp [zipStep, zipPrimSteps, zipWorkSteps] at hc'
          subst hc'
          exact ⟨trivial, by simp [zipMeasure] <;> omega⟩
    | send b bs => cases q <;> simp [zipInv] at hInv
    | stopped =>
      cases q with
      | empty => simp [zipInv] at hInv
      | full => simp [zipInv] at hInv
      | closed => simp [zipDone] at hnd

theorem zip_safeterm_of_inv {T U R σ : Type} (f : T → U → R)
    (yield : R → σ → σ × Res) :
    ∀ (N : Nat) (c : ZipConf T U σ), zipMeasure c ≤ N → zipInv c →
      SafeTerm f yield c := by
  intro N
  induction N with
  | zero =>
    intro c hM hI
    by_cases hd : zipDone c = true
    · exact .finished c hd
    · obtain ⟨hne, hstep⟩ := zipStep_sound f yield c hI
        (by simpa using hd)
      obtain ⟨c', hc'⟩ := List.exists_mem_of_ne_nil _ hne
      have := (hstep c' hc').2
      omega
  | succ n ih =>
    intro c hM hI
    by_cases hd : zipDone c = true
    · exact .finished c hd
    · obtain ⟨hne, hstep⟩ := zipStep_sound f yield c hI
        (by simpa using hd)
      refine .advance c hne (fun c' hc' => ?_)
      exact ih c' (by have := (hstep c' hc').2; omega) (hstep c' hc').1

/-- Claim C6: for every Zip execution — any primary elements, any
secondary elements, any downstream consumer, including one that panics
mid-way as an enclosing combinator's early exit does — every maximal
interleaving of the primary driver and the secondary worker is finite,
never deadlocks, and ends with the worker terminated (not blocked on
any channel) and the stop signal sent: the quit channel closed on every
exit path. -/
theorem claim_C6 {T U R σ : Type} (f : T → U → R)
    (yield : R → σ → σ × Res) (la : List T) (lb : List U) (s : σ) :
    SafeTerm f yield (zipInit la lb s) :=
  zip_safeterm_of_inv f yield (zipMeasure (zipInit la lb s))
    (zipInit la lb s) le_rfl trivial
